import Mathlib

/-!
Verification of the parley rich-text layout engine (Rust) against its
natural-language specification, via a shallow embedding of the relevant
source functions in Lean 4.

Conventions:
* Machine integers (u16, u32, i32, usize) are modelled as Nat / Int; the
  arithmetic performed by the embedded functions never overflows its Rust
  type on the inputs considered, so no wrap-around modelling is needed
  (this is noted where relevant).
* f32 values that only flow through equality tests and additions are
  modelled exactly as rationals (advances, offsets) or integers
  (oblique angles, variation values).
* Types owned by the external swash library (Stretch, Style, Weight,
  Status, Setting) are modelled from that library's published API:
  a Stretch is its raw u16 value with NORMAL = 100 and
  ULTRA_EXPANDED = 200, clamped on construction to [50, 200].
-/

namespace Parley

/-! ## Font family matching (src/font/family.rs) -/

/-- swash font style: normal, italic, or oblique with an angle.
The angle (an f32 in swash) is modelled as an integer; the matcher only
copies angles around and compares them for equality. -/
inductive FontStyle where
  | normal : FontStyle
  | italic : FontStyle
  | oblique : Int → FontStyle
deriving DecidableEq, Repr

/-- One member of a font family: `FontAttributes` in src/font/family.rs.
Stretch and weight carry their raw u16 values. -/
structure FontAttributes where
  fontId : Nat
  stretch : Nat
  weight : Nat
  style : FontStyle
deriving DecidableEq, Repr

/-- `FontFamily` in src/font/family.rs (id and name omitted: the query
logic never reads them). -/
structure FontFamily where
  hasStretch : Bool
  fontAttrs : List FontAttributes
deriving Repr

/-- Requested attribute tuple (`swash::Attributes` parts). -/
structure Attrs where
  stretch : Nat
  weight : Nat
  style : FontStyle
deriving Repr

/-- Raw value of swash Stretch::NORMAL. -/
def stretchNormal : Nat := 100

/-- Raw value of swash Stretch::ULTRA_EXPANDED. -/
def stretchUltraExpanded : Nat := 200

/-- Reflection used by the request-below-or-at-NORMAL branch of
FontFamily::query: a candidate stretch above NORMAL is mapped to
raw - NORMAL + ULTRA_EXPANDED; others keep their raw value. -/
def stretchKeyLe (s : Nat) : Int :=
  if stretchNormal < s then (s : Int) - stretchNormal + stretchUltraExpanded
  else (s : Int)

/-- Reflection used by the request-above-NORMAL branch of
FontFamily::query: a candidate stretch below NORMAL is mapped to
raw - NORMAL + ULTRA_EXPANDED; others keep their raw value. -/
def stretchKeyGt (s : Nat) : Int :=
  if s < stretchNormal then (s : Int) - stretchNormal + stretchUltraExpanded
  else (s : Int)

/-- Distance of a candidate stretch from the request under a reflection. -/
def stretchDist (key : Nat → Int) (req : Nat) (s : Nat) : Int :=
  (key s - (req : Int)).natAbs

/-- The running-minimum loop of the stretch axis in FontFamily::query:
state is (min_stretch_dist, matching_stretch); an element replaces the
state only when its distance is strictly smaller. -/
def stretchFold (key : Nat → Int) (req : Nat) :
    List FontAttributes → Int × Nat → Int × Nat
  | [], acc => acc
  | a :: rest, (minD, m) =>
      let off : Int := stretchDist key req a.stretch
      if off < minD then stretchFold key req rest (off, a.stretch)
      else stretchFold key req rest (minD, m)

/-- i32::MAX, the initial value of min_stretch_dist. -/
def i32Max : Int := 2147483647

/-- The stretch axis of FontFamily::query: if the family has no stretch
variance the result is NORMAL, otherwise the minimum-distance stretch
under the directional reflection, first occurrence winning. -/
def matchingStretch (fam : FontFamily) (req : Nat) : Nat :=
  if fam.hasStretch then
    if req ≤ stretchNormal then
      (stretchFold stretchKeyLe req fam.fontAttrs (i32Max, stretchNormal)).2
    else
      (stretchFold stretchKeyGt req fam.fontAttrs (i32Max, stretchNormal)).2
  else stretchNormal

/-- Style loop for a Normal request: initial candidate Italic; a Normal
member ends the loop, an Oblique member becomes the candidate. -/
def styleLoopNormal : List FontAttributes → FontStyle → FontStyle
  | [], acc => acc
  | a :: rest, acc =>
      match a.style with
      | .normal => .normal
      | .oblique ang => styleLoopNormal rest (.oblique ang)
      | .italic => styleLoopNormal rest acc

/-- Style loop for an Oblique request: initial candidate Normal; any
Oblique member ends the loop returning the requested style, an Italic
member becomes the candidate. -/
def styleLoopOblique (reqStyle : FontStyle) :
    List FontAttributes → FontStyle → FontStyle
  | [], acc => acc
  | a :: rest, acc =>
      match a.style with
      | .oblique _ => reqStyle
      | .italic => styleLoopOblique reqStyle rest .italic
      | .normal => styleLoopOblique reqStyle rest acc

/-- Style loop for an Italic request: initial candidate Normal; an Italic
member ends the loop, an Oblique member becomes the candidate. -/
def styleLoopItalic : List FontAttributes → FontStyle → FontStyle
  | [], acc => acc
  | a :: rest, acc =>
      match a.style with
      | .italic => .italic
      | .oblique ang => styleLoopItalic rest (.oblique ang)
      | .normal => styleLoopItalic rest acc

/-- The style axis of FontFamily::query, restricted to members whose
stretch equals the matched stretch. -/
def matchingStyle (fam : FontFamily) (ms : Nat) (reqStyle : FontStyle) :
    FontStyle :=
  let members := fam.fontAttrs.filter (fun a => a.stretch = ms)
  match reqStyle with
  | .normal => styleLoopNormal members .italic
  | .oblique ang => styleLoopOblique (.oblique ang) members .normal
  | .italic => styleLoopItalic members .normal

/-- FontFamily::query from src/font/family.rs: stretch axis, then style
axis, then the CSS weight brackets over members matching both. -/
def FontFamily.query (fam : FontFamily) (req : Attrs) : Option Nat :=
  let ms := matchingStretch fam req.stretch
  let msty := matchingStyle fam ms req.style
  let fits := fun (a : FontAttributes) => a.stretch = ms ∧ a.style = msty
  let w := req.weight
  if 400 ≤ w ∧ w ≤ 500 then
    match fam.fontAttrs.find? (fun a =>
        fits a ∧ w ≤ a.weight ∧ a.weight ≤ 500) with
    | some a => some a.fontId
    | none =>
      match fam.fontAttrs.reverse.find? (fun a => fits a ∧ a.weight < w) with
      | some a => some a.fontId
      | none =>
        (fam.fontAttrs.find? (fun a => fits a ∧ 500 < a.weight)).map
          (fun a => a.fontId)
  else if w < 400 then
    match fam.fontAttrs.reverse.find? (fun a => fits a ∧ a.weight ≤ w) with
    | some a => some a.fontId
    | none =>
      (fam.fontAttrs.find? (fun a => fits a ∧ w < a.weight)).map
        (fun a => a.fontId)
  else
    match fam.fontAttrs.find? (fun a => fits a ∧ w ≤ a.weight) with
    | some a => some a.fontId
    | none =>
      (fam.fontAttrs.reverse.find? (fun a => fits a ∧ a.weight < w)).map
        (fun a => a.fontId)

/-! ### Lemmas about the stretch running-minimum loop -/

theorem stretchFold_le_acc (key : Nat → Int) (req : Nat)
    (l : List FontAttributes) (acc : Int × Nat) :
    (stretchFold key req l acc).1 ≤ acc.1 := by
  induction l generalizing acc with
  | nil => simp [stretchFold]
  | cons a rest ih =>
    obtain ⟨minD, m⟩ := acc
    simp only [stretchFold]
    split
    · exact le_trans (ih _) (by simp; omega)
    · exact ih _

theorem stretchFold_le_mem (key : Nat → Int) (req : Nat)
    (l : List FontAttributes) (acc : Int × Nat) :
    ∀ a ∈ l, (stretchFold key req l acc).1 ≤ stretchDist key req a.stretch := by
  induction l generalizing acc with
  | nil => simp
  | cons b rest ih =>
    obtain ⟨minD, m⟩ := acc
    intro a ha
    rcases List.mem_cons.mp ha with h | h
    · subst h
      simp only [stretchFold]
      split
      · exact le_trans (stretchFold_le_acc key req rest _) (le_refl _)
      · exact le_trans (stretchFold_le_acc key req rest _) (by omega)
    · simp only [stretchFold]
      split
      · exact ih _ a h
      · exact ih _ a h

theorem stretchFold_result (key : Nat → Int) (req : Nat)
    (l : List FontAttributes) (acc : Int × Nat) :
    stretchFold key req l acc = acc ∨
      ∃ a ∈ l, (stretchFold key req l acc).1 = stretchDist key req a.stretch ∧
        (stretchFold key req l acc).2 = a.stretch := by
  induction l generalizing acc with
  | nil => left; simp [stretchFold]
  | cons b rest ih =>
    obtain ⟨minD, m⟩ := acc
    simp only [stretchFold]
    split
    · rcases ih (stretchDist key req b.stretch, b.stretch) with h | ⟨a, ha, h1, h2⟩
      · right
        exact ⟨b, by simp, by rw [h], by rw [h]⟩
      · right
        exact ⟨a, by simp [ha], h1, h2⟩
    · rcases ih (minD, m) with h | ⟨a, ha, h1, h2⟩
      · left; exact h
      · right; exact ⟨a, by simp [ha], h1, h2⟩

/-- Distances are small on valid swash raw values, hence always below the
i32::MAX initialization. -/
theorem stretchDist_lt_i32Max (req s : Nat)
    (hreq : 50 ≤ req ∧ req ≤ 200) (hs : 50 ≤ s ∧ s ≤ 200) :
    (stretchDist stretchKeyLe req s < i32Max ∧
     stretchDist stretchKeyGt req s < i32Max) := by
  unfold stretchDist stretchKeyLe stretchKeyGt i32Max stretchNormal
    stretchUltraExpanded
  constructor <;> split <;> omega

/-- For a request at or below NORMAL, a reflected expanded candidate is at
distance at least 101. -/
theorem distLe_expanded_ge (req s : Nat) (hreq : req ≤ 100) (hs : 100 < s) :
    101 ≤ stretchDist stretchKeyLe req s := by
  unfold stretchDist stretchKeyLe stretchNormal stretchUltraExpanded
  rw [if_pos (by omega : (100 : Nat) < s)]
  omega

/-- For a request at or below NORMAL, an unreflected condensed candidate in
the valid raw range is at distance at most 50. -/
theorem distLe_condensed_le (req s : Nat) (hreq : 50 ≤ req ∧ req ≤ 100)
    (hs : 50 ≤ s ∧ s ≤ 100) :
    stretchDist stretchKeyLe req s ≤ 50 := by
  unfold stretchDist stretchKeyLe stretchNormal stretchUltraExpanded
  rw [if_neg (by omega : ¬ (100 : Nat) < s)]
  omega

/-- C1 (as stated, refuted): with members of stretch 50 (ULTRA_CONDENSED)
and 150 (EXTRA_EXPANDED) and a request of stretch 150 (> NORMAL), both
candidates are at mirrored-reflection distance 0, yet query selects the
strictly more condensed stretch 50 and returns that member: expanded
candidates do not win ties when the request is above NORMAL. -/
theorem c1_tie_counterexample :
    let fam : FontFamily :=
      { hasStretch := true,
        fontAttrs := [⟨0, 50, 400, .normal⟩, ⟨1, 150, 400, .normal⟩] }
    stretchDist stretchKeyGt 150 50 = stretchDist stretchKeyGt 150 150 ∧
    matchingStretch fam 150 = 50 ∧
    FontFamily.query fam ⟨150, 400, .normal⟩ = some 0 := by
  refine ⟨by decide, by decide, by decide⟩

/-- C1 (amended): with the family's stretch variance flag set and all raw
stretch values in the valid swash range [50, 200], the selected stretch
minimizes the directional-reflection distance to the request; when the
request is at or below NORMAL and any candidate at or below NORMAL
exists, the selection is at or below NORMAL (condensed candidates beat
all reflected expanded candidates). When the request is above NORMAL only
minimality holds: ties and even wins by reflected condensed candidates
are possible (see the counterexample). -/
theorem c1_stretch_selection_amended (fam : FontFamily) (req : Nat)
    (hs : fam.hasStretch = true)
    (hb : ∀ a ∈ fam.fontAttrs, 50 ≤ a.stretch ∧ a.stretch ≤ 200)
    (hreq : 50 ≤ req ∧ req ≤ 200) :
    (req ≤ stretchNormal →
      (∀ a ∈ fam.fontAttrs,
        stretchDist stretchKeyLe req (matchingStretch fam req) ≤
          stretchDist stretchKeyLe req a.stretch) ∧
      ((∃ a ∈ fam.fontAttrs, a.stretch ≤ stretchNormal) →
        matchingStretch fam req ≤ stretchNormal)) ∧
    (stretchNormal < req →
      ∀ a ∈ fam.fontAttrs,
        stretchDist stretchKeyGt req (matchingStretch fam req) ≤
          stretchDist stretchKeyGt req a.stretch) := by
  constructor
  · intro hle
    have hms : matchingStretch fam req =
        (stretchFold stretchKeyLe req fam.fontAttrs (i32Max, stretchNormal)).2 := by
      simp [matchingStretch, hs, hle]
    constructor
    · intro a ha
      rcases stretchFold_result stretchKeyLe req fam.fontAttrs
          (i32Max, stretchNormal) with hr | ⟨a0, ha0, h1, h2⟩
      · exfalso
        have hmem := stretchFold_le_mem stretchKeyLe req fam.fontAttrs
          (i32Max, stretchNormal) a ha
        rw [hr] at hmem
        have hlt := (stretchDist_lt_i32Max req a.stretch hreq (hb a ha)).1
        simp only at hmem
        omega
      · rw [hms, h2, ← h1]
        exact stretchFold_le_mem stretchKeyLe req fam.fontAttrs
          (i32Max, stretchNormal) a ha
    · rintro ⟨c, hc, hcle⟩
      rcases stretchFold_result stretchKeyLe req fam.fontAttrs
          (i32Max, stretchNormal) with hr | ⟨a0, ha0, h1, h2⟩
      · rw [hms, hr]
      · rw [hms, h2]
        by_contra hgt
        push_neg at hgt
        have hlec := stretchFold_le_mem stretchKeyLe req fam.fontAttrs
          (i32Max, stretchNormal) c hc
        rw [h1] at hlec
        have hge := distLe_expanded_ge req a0.stretch
          (by simpa [stretchNormal] using hle)
          (by simpa [stretchNormal] using hgt)
        have hcl := distLe_condensed_le req c.stretch
          ⟨hreq.1, by simpa [stretchNormal] using hle⟩
          ⟨(hb c hc).1, by simpa [stretchNormal] using hcle⟩
        omega
  · intro hgt
    intro a ha
    have hms : matchingStretch fam req =
        (stretchFold stretchKeyGt req fam.fontAttrs (i32Max, stretchNormal)).2 := by
      simp [matchingStretch, hs]
      intro h
      exfalso
      simp [stretchNormal] at hgt h
      omega
    rcases stretchFold_result stretchKeyGt req fam.fontAttrs
        (i32Max, stretchNormal) with hr | ⟨a0, ha0, h1, h2⟩
    · exfalso
      have hmem := stretchFold_le_mem stretchKeyGt req fam.fontAttrs
        (i32Max, stretchNormal) a ha
      rw [hr] at hmem
      have hlt := (stretchDist_lt_i32Max req a.stretch hreq (hb a ha)).2
      simp only at hmem
      omega
    · rw [hms, h2, ← h1]
      exact stretchFold_le_mem stretchKeyGt req fam.fontAttrs
        (i32Max, stretchNormal) a ha

/-- Witness for C1 (amended) at a concrete family and request. -/
theorem c1_stretch_selection_witness :
    let fam : FontFamily :=
      { hasStretch := true,
        fontAttrs := [⟨0, 75, 400, .normal⟩, ⟨1, 125, 400, .normal⟩] }
    matchingStretch fam 80 ≤ stretchNormal := by
  intro fam
  exact (c1_stretch_selection_amended fam 80 (by decide)
      (by decide) (by decide)).1 (by decide) |>.2 ⟨⟨0, 75, 400, .normal⟩, by decide, by decide⟩

/-- A family whose only member has Normal (raw 100) stretch matches
stretch 100 for every request, whatever the stretch-variance flag. -/
theorem matchingStretch_single_normal (hs : Bool) (fid : Nat) (s : Nat) :
    matchingStretch ⟨hs, [⟨fid, 100, 400, .normal⟩]⟩ s = 100 := by
  unfold matchingStretch
  cases hs
  · simp [stretchNormal]
  · simp only [if_true, stretchNormal]
    split <;>
      · simp only [stretchFold]
        split <;> rfl

/-- A family whose only member has Normal style matches Normal style for
every requested style. -/
theorem matchingStyle_single_normal (hs : Bool) (fid : Nat)
    (sty : FontStyle) :
    matchingStyle ⟨hs, [⟨fid, 100, 400, .normal⟩]⟩ 100 sty = .normal := by
  cases sty <;>
    simp [matchingStyle, styleLoopNormal, styleLoopOblique, styleLoopItalic,
      List.filter]

/-- C2: a family with exactly one face of attributes (Normal stretch,
weight 400, Normal style) answers FontFamily::query with that face's id
for every requested (stretch, weight, style) tuple, in every weight
bracket and for italic and oblique style requests. -/
theorem c2_single_face_query (hs : Bool) (fid : Nat) (req : Attrs) :
    FontFamily.query ⟨hs, [⟨fid, 100, 400, .normal⟩]⟩ req = some fid := by
  obtain ⟨s, w, sty⟩ := req
  unfold FontFamily.query
  simp only [matchingStretch_single_normal, matchingStyle_single_normal]
  by_cases h1 : 400 ≤ w ∧ w ≤ 500
  · rw [if_pos h1]
    by_cases h2 : w ≤ 400
    · have hw : w = 400 := by omega
      subst hw
      simp [List.find?]
    · simp [List.find?, show ¬ (w ≤ 400) from h2, show 400 < w by omega]
  · rw [if_neg h1]
    by_cases h3 : w < 400
    · rw [if_pos h3]
      simp [List.find?, show ¬ (400 ≤ w) from by omega, show w < 400 from h3]
    · rw [if_neg h3]
      simp [List.find?, show ¬ (w ≤ 400) from by omega, show 400 < w by omega]

/-! ## Font-fallback cache (src/font/mod.rs) -/

/-- swash cluster-mapping tri-state (swash::text::cluster::Status). -/
inductive MapStatus where
  | discard : MapStatus
  | keep : MapStatus
  | complete : MapStatus
deriving DecidableEq, Repr

/-- CachedFont from src/font/mod.rs: font id, whether the font/charmap
pair has been loaded, and the error flag. The loaded handle itself and
the attributes are determined by the id via the collection, so only the
flags are tracked. -/
structure CachedFont where
  id : Nat
  loaded : Bool
  error : Bool
deriving DecidableEq, Repr

/-- CachedFont::map_cluster. The collection lookup and charmap are
abstracted into two oracles: loadable (does get_font succeed for this
id) and status (the tri-state cluster.map result for this font's
charmap). Returns the updated entry, the updated best candidate (as a
font id), and whether the walk stops. -/
def CachedFont.mapClusterStep (loadable : Nat → Bool)
    (status : Nat → MapStatus) (cf : CachedFont) (best : Option Nat) :
    CachedFont × Option Nat × Bool :=
  if cf.error then (cf, best, false)
  else
    match (if cf.loaded then some cf
           else if loadable cf.id then some { cf with loaded := true }
           else none) with
    | none => ({ cf with error := true }, best, false)
    | some cf2 =>
      match status cf2.id with
      | .complete => (cf2, some cf2.id, true)
      | .keep => (cf2, some cf2.id, false)
      | .discard => (cf2, best, false)

/-- The walk in fn map_cluster (src/font/mod.rs lines 132-144): try each
cached font in order, stopping at the first that reports success. -/
def mapClusterWalk (loadable : Nat → Bool) (status : Nat → MapStatus) :
    List CachedFont → Option Nat → List CachedFont × Option Nat × Bool
  | [], best => ([], best, false)
  | cf :: rest, best =>
    let r := cf.mapClusterStep loadable status best
    if r.2.2 then (r.1 :: rest, r.2.1, true)
    else
      let rr := mapClusterWalk loadable status rest r.2.1
      (r.1 :: rr.1, rr.2.1, rr.2.2)

/-- An entry that cannot report Complete: errored, unloadable, or its
charmap does not fully cover the cluster. -/
def noComplete (loadable : Nat → Bool) (status : Nat → MapStatus)
    (cf : CachedFont) : Prop :=
  cf.error = true ∨ (cf.loaded = false ∧ loadable cf.id = false) ∨
    status cf.id ≠ .complete

instance (loadable : Nat → Bool) (status : Nat → MapStatus)
    (cf : CachedFont) : Decidable (noComplete loadable status cf) := by
  unfold noComplete
  infer_instance

/-- A non-Complete entry never stops the walk. -/
theorem mapClusterStep_no_stop (loadable : Nat → Bool)
    (status : Nat → MapStatus) (cf : CachedFont) (best : Option Nat)
    (h : noComplete loadable status cf) :
    (cf.mapClusterStep loadable status best).2.2 = false := by
  unfold CachedFont.mapClusterStep
  by_cases he : cf.error = true
  · simp [he]
  · rw [if_neg he]
    simp only [Bool.not_eq_true] at he
    by_cases hl : cf.loaded = true
    · have hst : status cf.id ≠ .complete := by
        rcases h with h1 | ⟨h2, _⟩ | h3
        · simp [h1] at he
        · simp [hl] at h2
        · exact h3
      cases hstat : status cf.id <;> simp [hl, hstat] <;> exact absurd hstat hst
    · simp only [Bool.not_eq_true] at hl
      by_cases hld : loadable cf.id = true
      · have hst : status cf.id ≠ .complete := by
          rcases h with h1 | ⟨_, h4⟩ | h3
          · simp [h1] at he
          · simp [hld] at h4
          · exact h3
        cases hstat : status cf.id <;> simp [hl, hld, hstat] <;>
          exact absurd hstat hst
      · simp only [Bool.not_eq_true] at hld
        simp [hl, hld]

/-- A loadable entry whose charmap covers the cluster completely reports
success, records its id as best, and stops. -/
theorem mapClusterStep_complete (loadable : Nat → Bool)
    (status : Nat → MapStatus) (f : CachedFont) (best : Option Nat)
    (he : f.error = false) (hl : f.loaded = true ∨ loadable f.id = true)
    (hst : status f.id = .complete) :
    ∃ cf2, f.mapClusterStep loadable status best = (cf2, some f.id, true) := by
  unfold CachedFont.mapClusterStep
  rcases hl with hl | hld
  · exact ⟨f, by simp [he, hl, hst]⟩
  · by_cases hl2 : f.loaded = true
    · exact ⟨f, by simp [he, hl2, hst]⟩
    · simp only [Bool.not_eq_true] at hl2
      exact ⟨{ f with loaded := true }, by simp [he, hl2, hld, hst]⟩

/-- C3: (1) an errored entry is skipped unchanged — no load retry, no
match; (2) an entry whose font fails to load gets its error flag set and
produces no match; (3) when every entry before f cannot report Complete
and f is loadable with Complete coverage, the walk records f as best,
stops, and leaves every entry after f untouched. -/
theorem c3_map_cluster_contract :
    (∀ (loadable : Nat → Bool) (status : Nat → MapStatus)
       (cf : CachedFont) (best : Option Nat), cf.error = true →
       cf.mapClusterStep loadable status best = (cf, best, false)) ∧
    (∀ (loadable : Nat → Bool) (status : Nat → MapStatus)
       (cf : CachedFont) (best : Option Nat),
       cf.error = false → cf.loaded = false → loadable cf.id = false →
       cf.mapClusterStep loadable status best =
         ({ cf with error := true }, best, false)) ∧
    (∀ (loadable : Nat → Bool) (status : Nat → MapStatus)
       (pre : List CachedFont) (f : CachedFont) (post : List CachedFont)
       (best : Option Nat),
       (∀ g ∈ pre, noComplete loadable status g) →
       f.error = false → (f.loaded = true ∨ loadable f.id = true) →
       status f.id = MapStatus.complete →
       (mapClusterWalk loadable status (pre ++ f :: post) best).2.1 =
         some f.id ∧
       (mapClusterWalk loadable status (pre ++ f :: post) best).2.2 = true ∧
       (mapClusterWalk loadable status (pre ++ f :: post) best).1.drop
         (pre.length + 1) = post) := by
  refine ⟨?_, ?_, ?_⟩
  · intro loadable status cf best he
    unfold CachedFont.mapClusterStep
    rw [if_pos he]
  · intro loadable status cf best he hl hld
    unfold CachedFont.mapClusterStep
    simp [he, hl, hld]
  · intro loadable status pre f post best hpre hfE hfL hfS
    induction pre generalizing best with
    | nil =>
      obtain ⟨cf2, hstep⟩ :=
        mapClusterStep_complete loadable status f best hfE hfL hfS
      simp only [List.nil_append, mapClusterWalk, hstep]
      simp
    | cons g pre2 ih =>
      have hg := hpre g (by simp)
      have hstop := mapClusterStep_no_stop loadable status g best hg
      simp only [List.cons_append, mapClusterWalk, hstop]
      have ih2 := ih ((g.mapClusterStep loadable status best).2.1)
        (fun x hx => hpre x (List.mem_cons_of_mem _ hx))
      refine ⟨ih2.1, ih2.2.1, ?_⟩
      simpa using ih2.2.2

/-- Witness for C3: all three parts applied at concrete entries. -/
theorem c3_map_cluster_contract_witness :
    (CachedFont.mapClusterStep (fun _ => true) (fun _ => .complete)
       ⟨3, false, true⟩ none = (⟨3, false, true⟩, none, false)) ∧
    (CachedFont.mapClusterStep (fun _ => false) (fun _ => .complete)
       ⟨4, false, false⟩ none = (⟨4, false, true⟩, none, false)) ∧
    ((mapClusterWalk (fun i => i != 5)
        (fun i => if i = 7 then .complete else .keep)
        ([⟨5, false, false⟩, ⟨6, false, false⟩] ++
          (⟨7, false, false⟩ : CachedFont) :: [⟨8, false, false⟩])
        none).2.1 = some 7) := by
  refine ⟨c3_map_cluster_contract.1 _ _ _ _ rfl,
    c3_map_cluster_contract.2.1 _ _ _ _ rfl rfl rfl, ?_⟩
  exact (c3_map_cluster_contract.2.2 (fun i => i != 5)
    (fun i => if i = 7 then .complete else .keep)
    [⟨5, false, false⟩, ⟨6, false, false⟩] ⟨7, false, false⟩
    [⟨8, false, false⟩] none (by decide) rfl (Or.inr rfl) rfl).1

/-! ## Style interner (src/resolve/mod.rs) -/

/-- usize::MAX: the index !0 carried by Resolved::default, the sentinel
handle. -/
def usizeMax : Nat := 2 ^ 64 - 1

/-- Sentinel handle index (Resolved::default). -/
def sentinel : Nat := usizeMax

/-- swash::Setting: a four-byte tag (u32) and a value. The value (f32
for variations, u16 for features) is modelled as an integer; the
resolver only copies, compares and sorts settings, never computes with
the value. -/
structure Setting where
  tag : Nat
  value : Int
deriving DecidableEq, Repr

/-- Interner cache (Cache<T> in src/resolve/mod.rs): a flat item arena
and (start, end) offset pairs. -/
structure Cache (T : Type) where
  items : List T
  entries : List (Nat × Nat)

/-- Rust slice lookup items.get(start..stop): Some of the sub-slice when
the range is in bounds. -/
def sliceGet {T : Type} (items : List T) (s t : Nat) : Option (List T) :=
  if s ≤ t ∧ t ≤ items.length then some ((items.drop s).take (t - s))
  else none

/-- The linear scan of Cache::insert: find the index of the first entry
whose stored slice equals the input. The counter i is the index of the
first entry in the remaining list. -/
def cacheScan {T : Type} [DecidableEq T] (items : List T) (xs : List T) :
    List (Nat × Nat) → Nat → Option Nat
  | [], _ => none
  | (s, t) :: rest, i =>
    if t - s ≠ xs.length then cacheScan items xs rest (i + 1)
    else
      match sliceGet items s t with
      | some ys =>
          if ys = xs then some i else cacheScan items xs rest (i + 1)
      | none => cacheScan items xs rest (i + 1)

/-- Cache::insert: reuse the index of an equal stored slice, otherwise
append the items and a new entry, returning the new entry's index. -/
def Cache.insert {T : Type} [DecidableEq T] (c : Cache T) (xs : List T) :
    Cache T × Nat :=
  match cacheScan c.items xs c.entries 0 with
  | some i => (c, i)
  | none =>
    let index := c.entries.length
    let start := c.items.length
    let items2 := c.items ++ xs
    ({ items := items2, entries := c.entries ++ [(start, items2.length)] },
      index)

/-- Cache::get: resolve a handle back to its slice. -/
def Cache.get {T : Type} (c : Cache T) (i : Nat) : Option (List T) :=
  match c.entries.get? i with
  | some (s, t) => sliceGet c.items s t
  | none => none

/-- Stable sort by ascending tag: models Rust sort_by(a.tag.cmp(&b.tag)),
which is a stable sort. insertionSort with this reflexive order inserts
each element before the later elements of equal tag, preserving the
original relative order of equal tags. -/
def sortByTag (l : List Setting) : List Setting :=
  List.insertionSort (fun a b => a.tag ≤ b.tag) l

/-- ResolveContext::resolve_variations / resolve_features after the
settings list has been copied into the tmp buffer (the two functions are
identical from that point on): empty list returns the sentinel handle,
otherwise the list is stably sorted by tag and interned. -/
def resolveSettings (c : Cache Setting) (tmp : List Setting) :
    Cache Setting × Nat :=
  if tmp = [] then (c, sentinel)
  else c.insert (sortByTag tmp)

/-- ResolveContext::resolve_stack for a list-form stack: each name is
resolved through the collection's family map (unknown names dropped) and
the resulting id list is interned — with no empty-list check. -/
def resolveStack (byName : String → Option Nat) (names : List String)
    (c : Cache Nat) : Cache Nat × Nat :=
  c.insert (names.filterMap byName)

/-- Well-formedness of a cache: every entry is an in-bounds range of the
arena. Holds for every cache built by insert from the empty cache. -/
def CacheWF {T : Type} (c : Cache T) : Prop :=
  ∀ e ∈ c.entries, e.1 ≤ e.2 ∧ e.2 ≤ c.items.length

/-! ### Lemmas about Cache::insert -/

theorem sliceGet_append {T : Type} (items ys : List T) (s t : Nat)
    (ht : t ≤ items.length) :
    sliceGet (items ++ ys) s t = sliceGet items s t := by
  unfold sliceGet
  by_cases hst : s ≤ t
  · rw [if_pos ⟨hst, by simp; omega⟩, if_pos ⟨hst, ht⟩]
    rw [List.drop_append_of_le_length (le_trans hst ht)]
    rw [List.take_append_of_le_length (by rw [List.length_drop]; omega)]
  · rw [if_neg (by simp [hst]), if_neg (by simp [hst])]

theorem sliceGet_self {T : Type} (items xs : List T) :
    sliceGet (items ++ xs) items.length (items.length + xs.length) =
      some xs := by
  unfold sliceGet
  rw [if_pos ⟨by omega, by simp⟩]
  rw [List.drop_append_of_le_length (le_refl _), List.drop_length]
  simp

/-- Single-step unfolding of the scan: the head entry matches exactly
when its length agrees and its in-bounds slice equals the input. -/
theorem cacheScan_cons {T : Type} [DecidableEq T] (items xs : List T)
    (s t : Nat) (rest : List (Nat × Nat)) (k : Nat) :
    cacheScan items xs ((s, t) :: rest) k =
      if t - s = xs.length ∧ sliceGet items s t = some xs then some k
      else cacheScan items xs rest (k + 1) := by
  simp only [cacheScan]
  by_cases h1 : t - s ≠ xs.length
  · rw [if_pos h1, if_neg (by tauto)]
  · rw [if_neg h1]
    rw [not_not] at h1
    cases hsg : sliceGet items s t with
    | none => rw [if_neg (by simp [hsg])]
    | some zs =>
      by_cases hz : zs = xs
      · subst hz
        rw [if_pos ⟨h1, rfl⟩]
        simp
      · rw [if_neg (by simp [hsg, hz])]
        simp [hz]

theorem cacheScan_append_items {T : Type} [DecidableEq T]
    (items ys xs : List T) :
    ∀ (es : List (Nat × Nat)) (k : Nat),
      (∀ e ∈ es, e.2 ≤ items.length) →
      cacheScan (items ++ ys) xs es k = cacheScan items xs es k := by
  intro es
  induction es with
  | nil => intro k _; rfl
  | cons e rest ih =>
    intro k h
    obtain ⟨s, t⟩ := e
    have ht : t ≤ items.length := (h (s, t) (by simp))
    have hrest : ∀ e ∈ rest, e.2 ≤ items.length :=
      fun e he => h e (List.mem_cons_of_mem _ he)
    rw [cacheScan_cons, cacheScan_cons, sliceGet_append items ys s t ht]
    by_cases hc : t - s = xs.length ∧ sliceGet items s t = some xs
    · rw [if_pos hc, if_pos hc]
    · rw [if_neg hc, if_neg hc]
      exact ih (k + 1) hrest

theorem cacheScan_last {T : Type} [DecidableEq T] (items xs : List T) :
    ∀ (es : List (Nat × Nat)) (k s t : Nat),
      cacheScan items xs es k = none →
      t - s = xs.length → sliceGet items s t = some xs →
      cacheScan items xs (es ++ [(s, t)]) k = some (k + es.length) := by
  intro es
  induction es with
  | nil =>
    intro k s t _ h1 h2
    rw [List.nil_append, cacheScan_cons, if_pos ⟨h1, h2⟩]
    simp
  | cons e rest ih =>
    intro k s t hnone h1 h2
    obtain ⟨s2, t2⟩ := e
    rw [cacheScan_cons] at hnone
    rw [List.cons_append, cacheScan_cons]
    by_cases hc : t2 - s2 = xs.length ∧ sliceGet items s2 t2 = some xs
    · rw [if_pos hc] at hnone
      cases hnone
    · rw [if_neg hc] at hnone ⊢
      rw [ih (k + 1) s t hnone h1 h2]
      congr 1
      simp only [List.length_cons]
      omega

theorem cacheScan_lt {T : Type} [DecidableEq T] (items xs : List T) :
    ∀ (es : List (Nat × Nat)) (k i : Nat),
      cacheScan items xs es k = some i → k ≤ i ∧ i < k + es.length := by
  intro es
  induction es with
  | nil => intro k i h; cases h
  | cons e rest ih =>
    intro k i h
    obtain ⟨s, t⟩ := e
    rw [cacheScan_cons] at h
    by_cases hc : t - s = xs.length ∧ sliceGet items s t = some xs
    · rw [if_pos hc] at h
      cases h
      simp only [List.length_cons]
      omega
    · rw [if_neg hc] at h
      have := ih (k + 1) i h
      simp only [List.length_cons]
      omega

theorem insert_WF {T : Type} [DecidableEq T] (c : Cache T) (xs : List T)
    (h : CacheWF c) : CacheWF (c.insert xs).1 := by
  unfold Cache.insert
  cases hscan : cacheScan c.items xs c.entries 0 with
  | some i => exact h
  | none =>
    intro e he
    simp only [List.mem_append, List.mem_singleton] at he
    rcases he with he | he
    · have := h e he
      constructor
      · exact this.1
      · simp
        omega
    · subst he
      constructor
      · simp
      · simp

theorem insert_insert {T : Type} [DecidableEq T] (c : Cache T)
    (xs : List T) (h : CacheWF c) :
    (c.insert xs).1.insert xs = ((c.insert xs).1, (c.insert xs).2) := by
  unfold Cache.insert
  cases hscan : cacheScan c.items xs c.entries 0 with
  | some i => simp [Cache.insert, hscan]
  | none =>
    simp only
    have hpref : cacheScan (c.items ++ xs) xs c.entries 0 = none := by
      rw [cacheScan_append_items c.items xs xs c.entries 0
        (fun e he => (h e he).2)]
      exact hscan
    have hlast := cacheScan_last (c.items ++ xs) xs c.entries 0
      c.items.length (c.items.length + xs.length) hpref (by omega)
      (sliceGet_self c.items xs)
    simp only [Cache.insert, List.length_append] at hlast ⊢
    rw [hlast]
    simp

/-- C5 (as stated, refuted for resolve_stack): resolving a stack in which
no family name is recognized interns the empty id list and returns cache
index 0 — not the sentinel index !0. -/
theorem c5_stack_sentinel_counterexample :
    (resolveStack (fun _ => none) [String.mk [Char.ofNat 110]]
        ⟨[], []⟩).2 = 0 ∧
    (resolveStack (fun _ => none) [String.mk [Char.ofNat 110]]
        ⟨[], []⟩).2 ≠ sentinel := by
  constructor
  · rfl
  · intro h
    rw [show (resolveStack (fun _ => none) [String.mk [Char.ofNat 110]]
        ⟨[], []⟩).2 = 0 from rfl] at h
    simp [sentinel, usizeMax] at h

/-- C5 (amended): resolve_variations and resolve_features return the
sentinel handle (index !0 = usize::MAX) on an empty resolved element
list, and the sentinel is distinct from the index of every stored entry
(entry counts are below usize::MAX since each entry occupies memory);
resolve_stack, however, has no empty check: it interns the empty list
and returns an ordinary entry index, which is also distinct from the
sentinel. -/
theorem c5_sentinel_amended :
    (∀ c : Cache Setting, resolveSettings c [] = (c, sentinel)) ∧
    (∀ c : Cache Setting, c.entries.length < usizeMax →
      ∀ i, i < c.entries.length → i ≠ sentinel) ∧
    (∀ (byName : String → Option Nat) (names : List String) (c : Cache Nat),
      c.entries.length < usizeMax →
      (resolveStack byName names c).2 < usizeMax ∧
      (resolveStack byName names c).2 ≠ sentinel) := by
  refine ⟨fun c => rfl, ?_, ?_⟩
  · intro c hlen i hi
    unfold sentinel
    omega
  · intro byName names c hlen
    cases hscan : cacheScan c.items (names.filterMap byName) c.entries 0 with
    | some i =>
      have hb := cacheScan_lt c.items (names.filterMap byName) c.entries 0 i
        hscan
      simp only [resolveStack, Cache.insert, hscan]
      unfold sentinel
      constructor
      · omega
      · omega
    | none =>
      simp only [resolveStack, Cache.insert, hscan]
      unfold sentinel
      constructor
      · omega
      · omega

/-- Witness for C5 (amended) at concrete caches. -/
theorem c5_sentinel_amended_witness :
    (resolveSettings ⟨[⟨1, 2⟩], [(0, 1)]⟩ [] =
      (⟨[⟨1, 2⟩], [(0, 1)]⟩, sentinel)) ∧
    ((0 : Nat) ≠ sentinel) ∧
    (resolveStack (fun _ => none) [] ⟨[], []⟩).2 ≠ sentinel := by
  refine ⟨c5_sentinel_amended.1 _, ?_, ?_⟩
  · exact c5_sentinel_amended.2.1 ⟨[⟨1, 2⟩], [(0, 1)]⟩ (by simp [usizeMax])
      0 (by simp)
  · exact (c5_sentinel_amended.2.2 (fun _ => none) [] ⟨[], []⟩
      (by simp [usizeMax])).2

/-! ### Permutation invariance of resolve_variations -/

theorem tagLe_total : ∀ a b : Setting,
    (fun a b : Setting => a.tag ≤ b.tag) a b ∨
    (fun a b : Setting => a.tag ≤ b.tag) b a :=
  fun a b => Nat.le_total a.tag b.tag

instance : IsTotal Setting (fun a b : Setting => a.tag ≤ b.tag) :=
  ⟨tagLe_total⟩

instance : IsTrans Setting (fun a b : Setting => a.tag ≤ b.tag) :=
  ⟨fun _ _ _ => Nat.le_trans⟩

theorem sortByTag_perm (l : List Setting) : (sortByTag l).Perm l :=
  List.perm_insertionSort _ l

theorem sortByTag_sorted (l : List Setting) :
    (sortByTag l).Sorted (fun a b : Setting => a.tag ≤ b.tag) :=
  List.sorted_insertionSort _ l

/-- Two tag-sorted lists that are permutations of each other and have
pairwise distinct tags are equal. -/
theorem sorted_perm_nodupTags_eq :
    ∀ (l1 l2 : List Setting), l1.Perm l2 →
      l1.Sorted (fun a b : Setting => a.tag ≤ b.tag) →
      l2.Sorted (fun a b : Setting => a.tag ≤ b.tag) →
      (l1.map Setting.tag).Nodup → l1 = l2 := by
  intro l1
  induction l1 with
  | nil =>
    intro l2 hp _ _ _
    exact (hp.symm.eq_nil).symm
  | cons x xs ih =>
    intro l2 hp hs1 hs2 hnd
    cases l2 with
    | nil => cases hp.eq_nil
    | cons y ys =>
      have hxy : x = y := by
        have hx2 : x ∈ y :: ys := hp.mem_iff.mp (by simp)
        have hy1 : y ∈ x :: xs := hp.mem_iff.mpr (by simp)
        rcases List.mem_cons.mp hy1 with h | hyin
        · exact h.symm
        rcases List.mem_cons.mp hx2 with h | hxin
        · exact h
        have h1 : x.tag ≤ y.tag :=
          (List.sorted_cons.mp hs1).1 y hyin
        have h2 : y.tag ≤ x.tag :=
          (List.sorted_cons.mp hs2).1 x hxin
        have htag : y.tag = x.tag := le_antisymm h2 h1
        exfalso
        have hxnot : x.tag ∉ xs.map Setting.tag :=
          (List.nodup_cons.mp hnd).1
        exact hxnot (htag ▸ List.mem_map_of_mem Setting.tag hyin)
      subst hxy
      have hrest := hp.cons_inv
      have := ih ys hrest (List.sorted_cons.mp hs1).2
        (List.sorted_cons.mp hs2).2 (List.nodup_cons.mp hnd).2
      rw [this]

/-- C6 (as stated, refuted): the two-element variation lists
[(tag 1, value 1), (tag 1, value 2)] and its reversal are permutations
of one another, but resolving the first and then the second on the
resulting context yields handles 0 and 1: the stable sort by tag leaves
the differing value orders intact, so the two sorted slices differ. -/
theorem c6_duplicate_tag_counterexample :
    List.Perm [(⟨1, 1⟩ : Setting), ⟨1, 2⟩] [⟨1, 2⟩, ⟨1, 1⟩] ∧
    ((resolveSettings
        (resolveSettings ⟨[], []⟩ [⟨1, 1⟩, ⟨1, 2⟩]).1
        [⟨1, 2⟩, ⟨1, 1⟩]).2 ≠
      (resolveSettings ⟨[], []⟩ [⟨1, 1⟩, ⟨1, 2⟩]).2) := by
  constructor
  · decide
  · decide

/-- C6 (amended): for variation setting lists that are permutations of
one another with pairwise distinct tags, resolving one and then the
other on the resulting context state yields equal handles (the second
resolution is a cache hit on the first's entry). With duplicate tags the
stable sort can produce distinct slices and the handles differ. -/
theorem c6_perm_distinct_tags (c : Cache Setting) (A B : List Setting)
    (hWF : CacheWF c) (hperm : A.Perm B)
    (hnodup : (A.map Setting.tag).Nodup) :
    (resolveSettings (resolveSettings c A).1 B).2 =
      (resolveSettings c A).2 := by
  by_cases hA : A = []
  · subst hA
    have hB : B = [] := hperm.symm.eq_nil
    subst hB
    rfl
  · have hB : B ≠ [] := by
      intro h
      subst h
      exact hA hperm.eq_nil
    have hpm : ((sortByTag B).map Setting.tag).Perm
        (A.map Setting.tag) :=
      ((sortByTag_perm B).trans hperm.symm).map Setting.tag
    have hsort : sortByTag B = sortByTag A :=
      sorted_perm_nodupTags_eq (sortByTag B) (sortByTag A)
        (((sortByTag_perm B).trans hperm.symm).trans
          (sortByTag_perm A).symm)
        (sortByTag_sorted B) (sortByTag_sorted A)
        (hpm.nodup_iff.mpr hnodup)
    simp only [resolveSettings, if_neg hA, if_neg hB, hsort]
    have h2 := insert_insert c (sortByTag A) hWF
    rw [h2]

/-- Witness for C6 (amended): distinct-tag permutations resolved on the
empty context produce equal handles. -/
theorem c6_perm_distinct_tags_witness :
    (resolveSettings (resolveSettings ⟨[], []⟩ [⟨2, 5⟩, ⟨1, 7⟩]).1
        [⟨1, 7⟩, ⟨2, 5⟩]).2 =
      (resolveSettings ⟨[], []⟩ [⟨2, 5⟩, ⟨1, 7⟩]).2 :=
  c6_perm_distinct_tags ⟨[], []⟩ [⟨2, 5⟩, ⟨1, 7⟩] [⟨1, 7⟩, ⟨2, 5⟩]
    (by intro e he; cases he) (by decide) (by decide)

/-! ## Layout data and the build entry points (src/context.rs) -/

/-- ClusterData: source text range and advance (Rust f32, modelled as an
exact rational). -/
structure ClusterData where
  textStart : Nat
  textEnd : Nat
  advance : Rat
deriving DecidableEq, Repr

/-- RunData fields used by the claims: source text range, bidi level, and
the run's range in the layout's global cluster buffer. -/
structure RunData where
  textStart : Nat
  textEnd : Nat
  bidiLevel : Nat
  clusterStart : Nat
  clusterEnd : Nat
deriving DecidableEq, Repr

/-- Glyph: style index and advance. -/
structure Glyph where
  styleIndex : Nat
  advance : Rat
deriving DecidableEq, Repr

/-- Style retained for glyph-level lookup (line-height multiplier). -/
structure StyleData where
  lineHeight : Rat
deriving DecidableEq, Repr

/-- Modelled from the spec: a run as referenced by a line (line_runs,
src/layout/data.rs and src/layout/line.rs are not under src/): source
text range, rtl flag (odd bidi level), the run's cluster range bounds in
the global buffer, and its visible clusters in logical order. -/
structure LineRunView where
  textStart : Nat
  textEnd : Nat
  rtl : Bool
  clusterStart : Nat
  clusterEnd : Nat
  clusters : List ClusterData
deriving DecidableEq, Repr

/-- Modelled from the spec: LineData with LineMetrics (offset, baseline,
leading) and the line's text range and visual-order run list
(src/layout/data.rs and src/layout/line.rs are not under src/). -/
structure LineData where
  offsetQ : Rat
  baseline : Rat
  leading : Rat
  textStart : Nat
  textEnd : Nat
  runs : List LineRunView
deriving DecidableEq, Repr

/-- LayoutData: the owning buffers of a Layout (field list per the spec
data model; src/layout/data.rs is not under src/). -/
structure LayoutData where
  scale : Rat
  hasBidi : Bool
  baseLevel : Bool
  textLen : Nat
  width : Rat
  fullWidth : Rat
  height : Rat
  fonts : List Nat
  coords : List Int
  styles : List StyleData
  runs : List RunData
  clusters : List ClusterData
  glyphs : List Glyph
  lines : List LineData
deriving DecidableEq, Repr

/-- Modelled from the spec: LayoutData::clear (src/layout/data.rs is not
under src/) empties every buffer and zeroes every scalar, giving the
state of a default (empty) layout. -/
def LayoutData.clear (_ : LayoutData) : LayoutData :=
  { scale := 0, hasBidi := false, baseLevel := false, textLen := 0,
    width := 0, fullWidth := 0, height := 0, fonts := [], coords := [],
    styles := [], runs := [], clusters := [], glyphs := [], lines := [] }

/-- Layout::default: an empty layout. -/
def layoutDefault : LayoutData := LayoutData.clear
  { scale := 0, hasBidi := false, baseLevel := false, textLen := 0,
    width := 0, fullWidth := 0, height := 0, fonts := [], coords := [],
    styles := [], runs := [], clusters := [], glyphs := [], lines := [] }

/-- RangedBuilder::build_into (src/context.rs lines 123-153). The bidi
resolver state is passed as the level array and the base level (a
boolean, LTR = false, per the spec; src/bidi.rs is not under src/), and
everything from style finishing through shape_text and
LayoutData::finish (src/shape.rs is not under src/) is abstracted as the
continuation rest, which operates on the layout after the header fields
are set. Returns the success flag and the final layout. -/
def buildInto (rest : LayoutData → LayoutData) (bidiLevels : List Nat)
    (bidiBase : Bool) (text : String) (scale : Rat)
    (layout : LayoutData) : Bool × LayoutData :=
  let d := layout.clear
  let d := { d with scale := scale }
  if text.isEmpty then (false, d)
  else
    let d := { d with
      hasBidi := !bidiLevels.isEmpty,
      baseLevel := !bidiBase,
      textLen := text.utf8ByteSize }
    (true, rest d)

/-- RangedBuilder::build (src/context.rs lines 155-162): build into a
default layout; None when build_into reports false. -/
def build (rest : LayoutData → LayoutData) (bidiLevels : List Nat)
    (bidiBase : Bool) (text : String) (scale : Rat) :
    Option LayoutData :=
  let r := buildInto rest bidiLevels bidiBase text scale layoutDefault
  if r.1 then some r.2 else none

/-- C4: on empty input text build_into returns false and leaves the
target layout cleared — no runs, clusters, glyphs, lines, or styles —
whatever the pre-existing target layout and the rest of the pipeline;
and build returns None. -/
theorem c4_empty_text_build (rest : LayoutData → LayoutData)
    (bidiLevels : List Nat) (bidiBase : Bool) (text : String)
    (scale : Rat) (layout : LayoutData) (h : text.isEmpty = true) :
    (buildInto rest bidiLevels bidiBase text scale layout).1 = false ∧
    (buildInto rest bidiLevels bidiBase text scale layout).2.runs = [] ∧
    (buildInto rest bidiLevels bidiBase text scale layout).2.clusters = [] ∧
    (buildInto rest bidiLevels bidiBase text scale layout).2.glyphs = [] ∧
    (buildInto rest bidiLevels bidiBase text scale layout).2.lines = [] ∧
    (buildInto rest bidiLevels bidiBase text scale layout).2.styles = [] ∧
    build rest bidiLevels bidiBase text scale = none := by
  unfold build buildInto LayoutData.clear
  rw [h]
  simp

/-- A dirty pre-existing layout used by the C4 witness. -/
def dirtyLayout : LayoutData :=
  { layoutDefault with
    runs := [⟨0, 1, 0, 0, 1⟩]
    lines := [⟨0, 0, 0, 0, 1, []⟩] }

/-- Witness for C4: empty text over a dirty pre-existing layout. -/
theorem c4_empty_text_build_witness :
    (buildInto id [] false (String.mk []) 2 dirtyLayout).1 = false ∧
    build id [] false (String.mk []) 2 = none := by
  have h := c4_empty_text_build id [] false (String.mk []) 2
    dirtyLayout (by rfl)
  exact ⟨h.1, h.2.2.2.2.2.2⟩

/-- C7: for every build over non-empty text, the stored base_level field
is the logical NOT of the bidi resolver's base level — true exactly when
the resolver reported LTR (false) — provided the shaping/finishing tail
of the pipeline leaves the field alone (it never touches it in the
source). -/
theorem c7_base_level_negated (rest : LayoutData → LayoutData)
    (bidiLevels : List Nat) (bidiBase : Bool) (text : String)
    (scale : Rat) (layout : LayoutData)
    (hne : text.isEmpty = false)
    (hrest : ∀ d, (rest d).baseLevel = d.baseLevel) :
    (buildInto rest bidiLevels bidiBase text scale layout).2.baseLevel =
      !bidiBase ∧
    ((buildInto rest bidiLevels bidiBase text scale layout).2.baseLevel =
        true ↔ bidiBase = false) := by
  unfold buildInto
  rw [hne]
  simp [hrest]

/-- Witness for C7 at concrete text and an identity pipeline tail. -/
theorem c7_base_level_negated_witness :
    (buildInto id [] false (String.mk [Char.ofNat 97]) 1
        layoutDefault).2.baseLevel = true :=
  ((c7_base_level_negated id [] false (String.mk [Char.ofNat 97]) 1
      layoutDefault rfl (fun _ => rfl)).2).mpr rfl

/-! ## Run cluster access and iteration (src/layout/run.rs) -/

/-- Run::len: the number of clusters in the run's cluster range. -/
def runLen (r : RunData) : Nat := r.clusterEnd - r.clusterStart

/-- Run::is_rtl: true when the bidi level is odd (bidi_level & 1 != 0). -/
def runIsRtl (r : RunData) : Bool := (r.bidiLevel &&& 1) != 0

/-- Run::get: positional lookup of cluster_range.start + index in the
layout's global cluster buffer — with no bound against the run's own
cluster_range.end. -/
def runGet (clusters : List ClusterData) (r : RunData) (index : Nat) :
    Option ClusterData :=
  clusters.get? (r.clusterStart + index)

/-- Forward walk of the Clusters iterator (rev = false): repeatedly take
range.next() and look the index up in the cluster buffer, stopping at
the first failure. -/
def iterFwd (clusters : List ClusterData) (s e : Nat) :
    List ClusterData :=
  if s < e then
    match clusters.get? s with
    | some c => c :: iterFwd clusters (s + 1) e
    | none => []
  else []
termination_by e - s

/-- Backward walk of the Clusters iterator (rev = true): repeatedly take
range.next_back() and look the index up, stopping at the first
failure. -/
def iterRev (clusters : List ClusterData) (s e : Nat) :
    List ClusterData :=
  if s < e then
    match clusters.get? (e - 1) with
    | some c => c :: iterRev clusters s (e - 1)
    | none => []
  else []
termination_by e - s

/-- Run::clusters: logical order. -/
def runClusters (clusters : List ClusterData) (r : RunData) :
    List ClusterData :=
  iterFwd clusters r.clusterStart r.clusterEnd

/-- Run::visual_clusters: the same range walked backwards when the run
is RTL. -/
def runVisualClusters (clusters : List ClusterData) (r : RunData) :
    List ClusterData :=
  if runIsRtl r then iterRev clusters r.clusterStart r.clusterEnd
  else iterFwd clusters r.clusterStart r.clusterEnd

theorem iterFwd_eq_slice (clusters : List ClusterData) :
    ∀ (n s e : Nat), e - s = n → e ≤ clusters.length →
      iterFwd clusters s e = (clusters.drop s).take (e - s) := by
  intro n
  induction n with
  | zero =>
    intro s e h _
    rw [iterFwd, if_neg (by omega), h]
    simp
  | succ m ih =>
    intro s e h he
    have hs : s < e := by omega
    have hsl : s < clusters.length := by omega
    rw [iterFwd, if_pos hs]
    rw [List.get?_eq_getElem?, List.getElem?_eq_getElem hsl]
    show clusters[s] :: iterFwd clusters (s + 1) e = _
    rw [ih (s + 1) e (by omega) he, List.drop_eq_getElem_cons hsl]
    rw [show e - s = (e - (s + 1)) + 1 from by omega]
    rw [List.take_succ_cons]

theorem iterRev_eq_slice_reverse (clusters : List ClusterData) :
    ∀ (n s e : Nat), e - s = n → e ≤ clusters.length →
      iterRev clusters s e = ((clusters.drop s).take (e - s)).reverse := by
  intro n
  induction n with
  | zero =>
    intro s e h _
    rw [iterRev, if_neg (by omega), h]
    simp
  | succ m ih =>
    intro s e h he
    have hs : s < e := by omega
    have hel : e - 1 < clusters.length := by omega
    rw [iterRev, if_pos hs]
    rw [List.get?_eq_getElem?, List.getElem?_eq_getElem hel]
    rw [ih s (e - 1) (by omega) (by omega)]
    have hstep : (clusters.drop s).take (e - s) =
        (clusters.drop s).take (e - 1 - s) ++ [clusters[e - 1]] := by
      have h1 : e - s = (e - 1 - s) + 1 := by omega
      rw [h1, List.take_succ]
      congr 1
      rw [List.getElem?_drop]
      rw [show s + (e - 1 - s) = e - 1 from by omega]
      rw [List.getElem?_eq_getElem hel]
      rfl
    rw [hstep]
    simp

/-- C9: for a run whose cluster range is within the layout's cluster
buffer (the invariant maintained by shaping), the visual cluster
sequence of an RTL run (odd bidi level) is exactly the reverse of its
logical cluster sequence, and for an LTR run (even level) the two
sequences are identical. -/
theorem c9_visual_clusters_reverse (clusters : List ClusterData)
    (r : RunData) (hwf : r.clusterEnd ≤ clusters.length) :
    (runIsRtl r = true →
      runVisualClusters clusters r = (runClusters clusters r).reverse) ∧
    (runIsRtl r = false →
      runVisualClusters clusters r = runClusters clusters r) := by
  constructor
  · intro hrtl
    unfold runVisualClusters runClusters
    rw [hrtl, if_pos rfl]
    rw [iterRev_eq_slice_reverse clusters (r.clusterEnd - r.clusterStart)
      r.clusterStart r.clusterEnd rfl hwf]
    rw [iterFwd_eq_slice clusters (r.clusterEnd - r.clusterStart)
      r.clusterStart r.clusterEnd rfl hwf]
  · intro hltr
    unfold runVisualClusters
    rw [hltr]
    rfl

/-- Witness for C9 at a concrete RTL run over a three-cluster buffer. -/
theorem c9_visual_clusters_reverse_witness :
    runVisualClusters [⟨0, 1, 1⟩, ⟨1, 2, 1⟩, ⟨2, 3, 1⟩] ⟨0, 3, 1, 0, 3⟩ =
      (runClusters [⟨0, 1, 1⟩, ⟨1, 2, 1⟩, ⟨2, 3, 1⟩] ⟨0, 3, 1, 0, 3⟩).reverse :=
  (c9_visual_clusters_reverse [⟨0, 1, 1⟩, ⟨1, 2, 1⟩, ⟨2, 3, 1⟩]
    ⟨0, 3, 1, 0, 3⟩ (by decide)).1 (by decide)

/-- C10: Run::get(index) returns Some exactly when
cluster_range.start + index is in bounds for the layout's global cluster
buffer — not when index < run.len(); concretely, in a layout with two
runs of one cluster each, get on the first run at index 1 (≥ its length)
returns the second run's cluster, whose text range lies outside the
first run's cluster and text ranges. -/
theorem c10_run_get_global_bound :
    (∀ (clusters : List ClusterData) (r : RunData) (index : Nat),
      (runGet clusters r index).isSome = true ↔
        r.clusterStart + index < clusters.length) ∧
    (∃ (clusters : List ClusterData) (r0 r1 : RunData) (index : Nat)
        (c : ClusterData),
      r0.clusterEnd = r1.clusterStart ∧
      runLen r0 ≤ index ∧
      runGet clusters r0 index = some c ∧
      ¬ r0.clusterStart + index < r0.clusterEnd ∧
      ¬ (r0.textStart ≤ c.textStart ∧ c.textEnd ≤ r0.textEnd)) := by
  constructor
  · intro clusters r index
    unfold runGet
    constructor
    · intro h
      by_contra hge
      rw [List.get?_eq_none.mpr (by omega)] at h
      cases h
    · intro h
      rw [List.get?_eq_getElem?, List.getElem?_eq_getElem h]
      rfl
  · exact ⟨[⟨0, 1, 1⟩, ⟨1, 2, 1⟩], ⟨0, 1, 0, 0, 1⟩, ⟨1, 2, 0, 1, 2⟩, 1,
      ⟨1, 2, 1⟩, by decide, by decide, by decide, by decide, by decide⟩

/-! ## Hit testing: Cursor::from_position (src/layout/cursor.rs) -/

/-- Cursor: the result record of hit testing. Offsets and advances are
f32 in the source, modelled as exact rationals. -/
structure Cursor where
  lineIndex : Nat
  runIndex : Nat
  clusterIndex : Nat
  baseline : Rat
  offsetQ : Rat
  advance : Rat
  textStart : Nat
  textEnd : Nat
  isRtl : Bool
  isLeading : Bool
  isInside : Bool
deriving DecidableEq, Repr

/-- Cursor::default. -/
def cursorDefault : Cursor :=
  { lineIndex := 0, runIndex := 0, clusterIndex := 0, baseline := 0,
    offsetQ := 0, advance := 0, textStart := 0, textEnd := 0,
    isRtl := false, isLeading := false, isInside := false }

/-- Outcome of one of the nested loops of from_position: either an early
return with a finished cursor, or the loop ran off its list with the
current cursor state and accumulated edge. -/
inductive LoopRes where
  | found : Cursor → LoopRes
  | cont : Cursor → Rat → LoopRes
deriving DecidableEq, Repr

/-- The cluster loop of Cursor::from_position (lines 110-129): walk the
run's visual clusters; record text range, edge and cluster index for
each; on the cluster containing the position return early, adding the
advance to the offset when the cursor is already marked outside. -/
def clusterLoop (rtl : Bool) (cre pos : Nat) :
    List ClusterData → Nat → Cursor → Rat → LoopRes
  | [], _, result, lastEdge => .cont result lastEdge
  | cl :: rest, clusterIndex, result, lastEdge =>
    let result := { result with
      textStart := cl.textStart
      textEnd := cl.textEnd
      offsetQ := lastEdge
      clusterIndex := if rtl then cre - clusterIndex - 1 else clusterIndex }
    if cl.textStart ≤ pos ∧ pos < cl.textEnd then
      let result := if !result.isInside then
          { result with offsetQ := result.offsetQ + cl.advance }
        else result
      .found { result with advance := cl.advance }
    else
      clusterLoop rtl cre pos rest (clusterIndex + 1) result
        (lastEdge + cl.advance)

/-- visual_clusters of a line run: the logical cluster list, reversed
when the run is RTL. -/
def visualList (run : LineRunView) : List ClusterData :=
  if run.rtl then run.clusters.reverse else run.clusters

/-- The run loop of Cursor::from_position (lines 104-130): record the
run index, skip runs whose text range does not contain the position,
and descend into the cluster loop otherwise. The accumulated edge is
not advanced across skipped runs. -/
def runLoop (pos : Nat) :
    List LineRunView → Nat → Cursor → Rat → LoopRes
  | [], _, result, lastEdge => .cont result lastEdge
  | run :: rest, runIndex, result, lastEdge =>
    let result := { result with runIndex := runIndex }
    if run.textStart ≤ pos ∧ pos < run.textEnd then
      match clusterLoop run.rtl run.clusterEnd pos (visualList run) 0
          result lastEdge with
      | .found r => .found r
      | .cont r le => runLoop pos rest (runIndex + 1) r le
    else
      runLoop pos rest (runIndex + 1) result lastEdge

/-- The line loop of Cursor::from_position (lines 95-133) together with
the trailing flag reset (lines 134-135): record baseline and line
index; skip lines that do not contain the position unless last; in the
selected line start the edge at the line offset and run the run loop;
an early return from the cluster loop skips the trailing reset, while
falling off the line sets the offset to the accumulated edge and then
clears is_leading and is_inside. -/
def lineLoop (pos lastLine : Nat) :
    List LineData → Nat → Cursor → Cursor
  | [], _, result => { result with isLeading := false, isInside := false }
  | line :: rest, lineIndex, result =>
    let result := { result with
      baseline := line.baseline
      lineIndex := lineIndex }
    if ¬(line.textStart ≤ pos ∧ pos < line.textEnd) ∧
        lineIndex ≠ lastLine then
      lineLoop pos lastLine rest (lineIndex + 1) result
    else
      let lastEdge := line.offsetQ
      let result := { result with offsetQ := lastEdge }
      match runLoop pos line.runs 0 result lastEdge with
      | .found r => r
      | .cont r le =>
        { r with offsetQ := le, isLeading := false, isInside := false }

/-- Cursor::from_position (src/layout/cursor.rs lines 83-137): start
with is_leading and is_inside set; clamp an out-of-range position to
text_len - 1 clearing both flags; then run the line walk. -/
def cursorFromPosition (layout : LayoutData) (pos : Nat) : Cursor :=
  let result : Cursor :=
    { cursorDefault with isLeading := true, isInside := true }
  let start :=
    if layout.textLen ≤ pos then
      ({ result with isInside := false, isLeading := false },
        layout.textLen - 1)
    else (result, pos)
  lineLoop start.2 (layout.lines.length - 1) layout.lines 0 start.1

/-- Sum of cluster advances. -/
def sumAdvances : List ClusterData → Rat
  | [] => 0
  | c :: rest => c.advance + sumAdvances rest

/-- Reaching the first containing cluster: the cluster loop returns a
found cursor whose flags and path header are the incoming ones, whose
text range and advance are the cluster's, and whose offset is the edge
accumulated over the skipped visual clusters — plus the advance when the
cursor is marked outside. -/
theorem clusterLoop_found (rtl : Bool) (cre pos : Nat) :
    ∀ (l1 : List ClusterData) (c : ClusterData) (l2 : List ClusterData)
      (idx0 : Nat) (result : Cursor) (lastEdge : Rat),
      (∀ x ∈ l1, ¬(x.textStart ≤ pos ∧ pos < x.textEnd)) →
      (c.textStart ≤ pos ∧ pos < c.textEnd) →
      ∃ r, clusterLoop rtl cre pos (l1 ++ c :: l2) idx0 result lastEdge =
          .found r ∧
        r.isInside = result.isInside ∧ r.isLeading = result.isLeading ∧
        r.baseline = result.baseline ∧ r.lineIndex = result.lineIndex ∧
        r.runIndex = result.runIndex ∧
        r.textStart = c.textStart ∧ r.textEnd = c.textEnd ∧
        r.advance = c.advance ∧
        r.offsetQ = (if result.isInside then lastEdge + sumAdvances l1
          else lastEdge + sumAdvances l1 + c.advance) := by
  intro l1
  induction l1 with
  | nil =>
    intro c l2 idx0 result lastEdge _ hc
    rw [List.nil_append, clusterLoop, if_pos hc]
    cases hin : result.isInside
    · refine ⟨_, rfl, ?_⟩
      simp [hin, sumAdvances]
    · refine ⟨_, rfl, ?_⟩
      simp [hin, sumAdvances]
  | cons x rest ih =>
    intro c l2 idx0 result lastEdge hskip hc
    rw [List.cons_append, clusterLoop,
      if_neg (hskip x (List.mem_cons_self x rest))]
    obtain ⟨r, heq, h1, h2, h3, h4, h5, h6, h7, h8, h9⟩ :=
      ih c l2 (idx0 + 1) _ (lastEdge + x.advance)
        (fun y hy => hskip y (List.mem_cons_of_mem _ hy)) hc
    refine ⟨r, heq, by simp [h1], by simp [h2], by simp [h3],
      by simp [h4], by simp [h5], h6, h7, h8, ?_⟩
    rw [h9]
    simp only [sumAdvances]
    cases hin : result.isInside <;> simp [hin] <;> ring

/-- Reaching the first containing run: skipped runs advance only the run
index, so the cluster loop starts at the unchanged edge. -/
theorem runLoop_found (pos : Nat) :
    ∀ (R1 : List LineRunView) (run : LineRunView) (R2 : List LineRunView)
      (idx0 : Nat) (result : Cursor) (lastEdge : Rat) (r : Cursor),
      (∀ x ∈ R1, ¬(x.textStart ≤ pos ∧ pos < x.textEnd)) →
      (run.textStart ≤ pos ∧ pos < run.textEnd) →
      clusterLoop run.rtl run.clusterEnd pos (visualList run) 0
        { result with runIndex := idx0 + R1.length } lastEdge = .found r →
      runLoop pos (R1 ++ run :: R2) idx0 result lastEdge = .found r := by
  intro R1
  induction R1 with
  | nil =>
    intro run R2 idx0 result lastEdge r _ hc hcl
    rw [List.nil_append, runLoop, if_pos hc]
    simp only [List.length_nil, Nat.add_zero] at hcl
    rw [hcl]
  | cons x rest ih =>
    intro run R2 idx0 result lastEdge r hskip hc hcl
    rw [List.cons_append, runLoop,
      if_neg (hskip x (List.mem_cons_self x rest))]
    apply ih run R2 (idx0 + 1) _ lastEdge r
      (fun y hy => hskip y (List.mem_cons_of_mem _ hy)) hc
    have : idx0 + 1 + rest.length = idx0 + (x :: rest).length := by
      simp
      omega
    rw [this]
    exact hcl

/-- Reaching the selected line: skipped lines (never the last) advance
only the baseline and line index; in the selected line the edge starts
at the line offset and a found cursor from the run loop is returned as
is. -/
theorem lineLoop_found (pos lastLine : Nat) :
    ∀ (L1 : List LineData) (line : LineData) (L2 : List LineData)
      (idx0 : Nat) (result : Cursor) (r : Cursor),
      (∀ x ∈ L1, ¬(x.textStart ≤ pos ∧ pos < x.textEnd)) →
      idx0 + L1.length ≤ lastLine →
      (line.textStart ≤ pos ∧ pos < line.textEnd) →
      runLoop pos line.runs 0
        { result with
          baseline := line.baseline
          lineIndex := idx0 + L1.length
          offsetQ := line.offsetQ } line.offsetQ = .found r →
      lineLoop pos lastLine (L1 ++ line :: L2) idx0 result = r := by
  intro L1
  induction L1 with
  | nil =>
    intro line L2 idx0 result r _ _ hc hrl
    rw [List.nil_append, lineLoop, if_neg (by tauto)]
    simp only [List.length_nil, Nat.add_zero] at hrl
    dsimp only
    rw [hrl]
  | cons x rest ih =>
    intro line L2 idx0 result r hskip hlast hc hrl
    rw [List.cons_append, lineLoop, if_pos ⟨hskip x
      (List.mem_cons_self x rest), by simp at hlast; omega⟩]
    apply ih line L2 (idx0 + 1) _ r
      (fun y hy => hskip y (List.mem_cons_of_mem _ hy))
      (by simp at hlast ⊢; omega) hc
    have : idx0 + 1 + rest.length = idx0 + (x :: rest).length := by
      simp
      omega
    rw [this]
    exact hrl

/-- C8 (as stated, refuted): one line holding two LTR runs of one
cluster each, advances 10 and 10, line offset 0. For pos = 1 (inside the
second run's cluster) from_position returns is_leading = true but
offset = 0: the walk skips the first run without accumulating its
advance, so the offset is not the accumulated leading edge of the
cluster within its line, which is 10. -/
theorem c8_offset_counterexample :
    let lay : LayoutData :=
      { layoutDefault with
        textLen := 2
        lines := [⟨0, 0, 0, 0, 2,
          [⟨0, 1, false, 0, 1, [⟨0, 1, 10⟩]⟩,
           ⟨1, 2, false, 1, 2, [⟨1, 2, 10⟩]⟩]⟩] }
    (cursorFromPosition lay 1).isLeading = true ∧
    (cursorFromPosition lay 1).isInside = true ∧
    (cursorFromPosition lay 1).textStart = 1 ∧
    (cursorFromPosition lay 1).offsetQ = 0 ∧
    (cursorFromPosition lay 1).offsetQ ≠ 10 := by
  refine ⟨by decide, by decide, by decide, by decide, by decide⟩

/-- C8 (amended): let p be the position after clamping (text_len - 1
when pos ≥ text_len). Whenever the line walk data locates p — the first
line containing p, within it the first run containing p, and within
that run's visual cluster sequence the first cluster containing p —
then: for pos < text_len the cursor has is_inside and is_leading set
and its offset is the line offset plus the advances of the visually
preceding clusters of the containing run only (advances of earlier runs
in the line are not accumulated); for pos ≥ text_len both flags are
clear and the offset additionally includes the found cluster's advance
(its trailing edge in the same run-local accumulation). -/
theorem c8_from_position_amended (layout : LayoutData) (pos p : Nat)
    (L1 : List LineData) (line : LineData) (L2 : List LineData)
    (R1 : List LineRunView) (run : LineRunView) (R2 : List LineRunView)
    (l1 : List ClusterData) (c : ClusterData) (l2 : List ClusterData)
    (hp : p = if layout.textLen ≤ pos then layout.textLen - 1 else pos)
    (hlines : layout.lines = L1 ++ line :: L2)
    (hL1 : ∀ x ∈ L1, ¬(x.textStart ≤ p ∧ p < x.textEnd))
    (hlc : line.textStart ≤ p ∧ p < line.textEnd)
    (hruns : line.runs = R1 ++ run :: R2)
    (hR1 : ∀ x ∈ R1, ¬(x.textStart ≤ p ∧ p < x.textEnd))
    (hrc : run.textStart ≤ p ∧ p < run.textEnd)
    (hvc : visualList run = l1 ++ c :: l2)
    (hl1 : ∀ x ∈ l1, ¬(x.textStart ≤ p ∧ p < x.textEnd))
    (hcc : c.textStart ≤ p ∧ p < c.textEnd) :
    (pos < layout.textLen →
      (cursorFromPosition layout pos).isInside = true ∧
      (cursorFromPosition layout pos).isLeading = true ∧
      (cursorFromPosition layout pos).textStart = c.textStart ∧
      (cursorFromPosition layout pos).textEnd = c.textEnd ∧
      (cursorFromPosition layout pos).offsetQ =
        line.offsetQ + sumAdvances l1) ∧
    (layout.textLen ≤ pos →
      (cursorFromPosition layout pos).isInside = false ∧
      (cursorFromPosition layout pos).isLeading = false ∧
      (cursorFromPosition layout pos).textStart = c.textStart ∧
      (cursorFromPosition layout pos).textEnd = c.textEnd ∧
      (cursorFromPosition layout pos).offsetQ =
        line.offsetQ + sumAdvances l1 + c.advance) := by
  have main : ∀ r0 : Cursor,
      ∃ r, lineLoop p (layout.lines.length - 1) layout.lines 0 r0 = r ∧
        r.isInside = r0.isInside ∧ r.isLeading = r0.isLeading ∧
        r.textStart = c.textStart ∧ r.textEnd = c.textEnd ∧
        r.offsetQ = (if r0.isInside then line.offsetQ + sumAdvances l1
          else line.offsetQ + sumAdvances l1 + c.advance) := by
    intro r0
    obtain ⟨r, hcl, e1, e2, e3, e4, e5, e6, e7, e8, e9⟩ :=
      clusterLoop_found run.rtl run.clusterEnd p l1 c l2 0
        { { r0 with
            baseline := line.baseline
            lineIndex := 0 + L1.length
            offsetQ := line.offsetQ } with runIndex := 0 + R1.length }
        line.offsetQ hl1 hcc
    have hrun := runLoop_found p R1 run R2 0
      { r0 with
        baseline := line.baseline
        lineIndex := 0 + L1.length
        offsetQ := line.offsetQ } line.offsetQ r hR1 hrc
      (by rw [hvc]; exact hcl)
    have hlin := lineLoop_found p (layout.lines.length - 1) L1 line L2 0
      r0 r hL1
      (by rw [hlines]; simp only [List.length_append, List.length_cons];
          omega)
      hlc (by rw [hruns]; exact hrun)
    rw [← hlines] at hlin
    exact ⟨r, hlin, e1, e2, e6, e7, e9⟩
  by_cases h : layout.textLen ≤ pos
  · have hp2 : p = layout.textLen - 1 := by rw [hp, if_pos h]
    obtain ⟨r, hr, e1, e2, e6, e7, e9⟩ := main
      { cursorDefault with isLeading := false, isInside := false }
    have hcfp : cursorFromPosition layout pos = r := by
      dsimp only [cursorFromPosition]
      rw [if_pos h]
      dsimp only
      rw [← hp2]
      exact hr
    refine ⟨fun hlt => absurd hlt (by omega), fun _ => ?_⟩
    rw [hcfp]
    exact ⟨e1, e2, e6, e7, e9⟩
  · have hp2 : p = pos := by rw [hp, if_neg h]
    obtain ⟨r, hr, e1, e2, e6, e7, e9⟩ := main
      { cursorDefault with isLeading := true, isInside := true }
    have hcfp : cursorFromPosition layout pos = r := by
      dsimp only [cursorFromPosition]
      rw [if_neg h]
      dsimp only
      rw [← hp2]
      exact hr
    refine ⟨fun _ => ?_, fun hge => absurd hge h⟩
    rw [hcfp]
    exact ⟨e1, e2, e6, e7, e9⟩

/-- Layout for the C8 witness: one line, one LTR run with clusters of
advances 7 and 9, text length 2. -/
def layC8w : LayoutData :=
  { layoutDefault with
    textLen := 2
    lines := [⟨0, 0, 0, 0, 2, [⟨0, 2, false, 0, 2,
      [⟨0, 1, 7⟩, ⟨1, 2, 9⟩]⟩]⟩] }

/-- Witness for C8 (amended): pos = 5 ≥ text_len = 2 is clamped to 1;
the cursor is outside, not leading, and its offset 16 is the trailing
edge 0 + 7 + 9 of the containing cluster. -/
theorem c8_from_position_amended_witness :
    (cursorFromPosition layC8w 5).isInside = false ∧
    (cursorFromPosition layC8w 5).isLeading = false ∧
    (cursorFromPosition layC8w 5).offsetQ =
      (0 : Rat) + sumAdvances [⟨0, 1, 7⟩] + 9 := by
  have h := (c8_from_position_amended layC8w 5 1
    [] ⟨0, 0, 0, 0, 2, [⟨0, 2, false, 0, 2, [⟨0, 1, 7⟩, ⟨1, 2, 9⟩]⟩]⟩ []
    [] ⟨0, 2, false, 0, 2, [⟨0, 1, 7⟩, ⟨1, 2, 9⟩]⟩ []
    [⟨0, 1, 7⟩] ⟨1, 2, 9⟩ []
    (by decide) rfl (by simp) (by decide) rfl (by simp) (by decide)
    (by decide) (by decide) (by decide)).2 (by decide)
  exact ⟨h.1, h.2.1, h.2.2.2.2⟩

end Parley
